import Mathlib

/-!
Verification of the c2c directory-tree serializer (src/c2c/c2c.py).

Shallow embedding conventions:
* Python strings (paths, patterns, lines) are `List Char`; the program runs
  on a POSIX system, so `os.sep = '/'` and `path.replace(os.sep, '/')` is the
  identity and is omitted.
* File bytes are `List Nat`.
* `fnmatch.fnmatch(name, pat)` is `globMatch name pat` (on POSIX `normcase`
  is the identity, so `fnmatch` is case-sensitive shell-glob matching where
  `*` and `?` also match `/`, and `[...]` classes follow `fnmatch.translate`).
* The filesystem is a rose tree (`FSTree` / `DirList`); `os.walk` with
  top-down pruning is `walkTree` / `walkDirs` / `walkFiles`, which return the
  list of emitted records together with an abort flag that models an
  exception escaping `scan_directory`.
-/

/-- Convert a literal to the character-list representation used throughout. -/
def s2l (s : String) : List Char := s.toList

def dotL : List Char := s2l "."

def gitL : List Char := s2l ".git"

/-! ### Shell-glob matching (`fnmatch.fnmatch` on POSIX) -/

/-- Scan for the closing `]` of a bracket class, as `fnmatch.translate` does:
returns the class content before the first `]` and the remaining pattern. -/
def findClose : List Char → Option (List Char × List Char)
  | [] => none
  | ']' :: r => some ([], r)
  | c :: r =>
    match findClose r with
    | none => none
    | some (a, b) => some (c :: a, b)

/-- Parse a bracket class after its opening `[`: the optional leading `!`
(negation), an optional literal `]` as first member, then the content up to
the closing `]`.  `none` when there is no closing `]` (the `[` is then a
literal, as in `fnmatch.translate`). -/
def splitClass (p : List Char) : Option (Bool × List Char × List Char) :=
  match p with
  | '!' :: rest =>
    match rest with
    | ']' :: r2 =>
      match findClose r2 with
      | none => none
      | some (a, b) => some (true, ']' :: a, b)
    | _ =>
      match findClose rest with
      | none => none
      | some (a, b) => some (true, a, b)
  | ']' :: r2 =>
    match findClose r2 with
    | none => none
    | some (a, b) => some (false, ']' :: a, b)
  | _ =>
    match findClose p with
    | none => none
    | some (a, b) => some (false, a, b)

/-- Membership of a character in a parsed bracket class (with `a-b` ranges,
as in the regular expression `fnmatch.translate` emits). -/
def classMatch : List Char → Char → Bool
  | [], _ => false
  | a :: '-' :: b :: rest, c => (a ≤ c && c ≤ b) || classMatch rest c
  | a :: rest, c => (a = c) || classMatch rest c

/-- The glob-matching loop, structurally recursive on a fuel argument so
that it evaluates by kernel reduction.  Every recursive call strictly
decreases `2 * pattern.length + name.length`, so with fuel above that
measure (as `globMatch` supplies) the `0` branch is unreachable and the
function computes exactly the backtracking glob match. -/
def globGo : Nat → List Char → List Char → Bool
  | 0, _, _ => false
  | fuel + 1, s, p =>
    match p with
    | [] => s.isEmpty
    | '*' :: p2 =>
      globGo fuel s p2 ||
        (match s with
         | [] => false
         | _ :: s2 => globGo fuel s2 ('*' :: p2))
    | '?' :: p2 =>
      (match s with
       | [] => false
       | _ :: s2 => globGo fuel s2 p2)
    | '[' :: p2 =>
      (match splitClass p2 with
       | none =>
         (match s with
          | [] => false
          | c :: s2 => (c = '[') && globGo fuel s2 p2)
       | some (neg, cls, rest) =>
         (match s with
          | [] => false
          | c :: s2 => (classMatch cls c != neg) && globGo fuel s2 rest))
    | c :: p2 =>
      (match s with
       | [] => false
       | d :: s2 => (d = c) && globGo fuel s2 p2)

/-- Shell-glob matching: `globMatch name pat` is `fnmatch.fnmatch(name, pat)`
on POSIX.  `*` matches any run of characters (including `/`), `?` any single
character, `[...]` a character class; an unmatched `[` is literal. -/
def globMatch (s p : List Char) : Bool :=
  globGo (2 * p.length + s.length + 1) s p

/-! ### The rule model (`GitignoreRule`) -/

/-- `GitignoreRule` dataclass: the stored glob pattern, the scope directory
(`base_dir`, relative to the scan root, `"."` for root-level rules) and the
negation flag. -/
structure GitignoreRule where
  pattern : List Char
  base_dir : List Char
  is_negation : Bool
  deriving DecidableEq, Repr

/-- Construction of a rule (dataclass `__init__` followed by
`__post_init__`): a single leading `!` is stripped and `is_negation` set.
Every rule the program ever stores is built through this function. -/
def mkRule (p bd : List Char) : GitignoreRule :=
  if p.head? = some '!' then ⟨p.drop 1, bd, true⟩ else ⟨p, bd, false⟩

/-- Path normalization at the top of `matches`: on POSIX
`path.replace(os.sep, '/')` is the identity, then one leading `./` is
stripped. -/
def normPath (p : List Char) : List Char :=
  if p.take 2 = ['.', '/'] then p.drop 2 else p

/-- The scope test of `matches`: rules with `base_dir != '.'` only apply to
paths equal to `base_dir` or starting with `base_dir + '/'`. -/
def scopeOkB (r : GitignoreRule) (p : List Char) : Bool :=
  r.base_dir = dotL || (r.base_dir ++ ['/']).isPrefixOf p || p = r.base_dir

/-- `rel_to_base` of `matches`: the path with the `base_dir/` prefix removed
(empty when the path equals `base_dir`; the path itself for root rules). -/
def relToBase (r : GitignoreRule) (p : List Char) : List Char :=
  if r.base_dir = dotL then p
  else if p = r.base_dir then []
  else p.drop (r.base_dir.length + 1)

/-- `os.path.basename` on POSIX: the part after the last `/`. -/
def basename (p : List Char) : List Char :=
  (p.reverse.takeWhile (fun c => c ≠ '/')).reverse

/-- `pattern.rstrip('/')`: drop all trailing slashes. -/
def rstripSlash (p : List Char) : List Char :=
  (p.reverse.dropWhile (fun c => c = '/')).reverse

/-- The unanchored matching step of `matches`: basename match first, then the
full `rel_to_base` match and the `**/`-prefixed fallback. -/
def matchCore (p rel pat : List Char) : Bool :=
  globMatch (basename p) pat || globMatch rel pat ||
    globMatch rel ('*' :: '*' :: '/' :: pat)

/-- `GitignoreRule.matches(path, is_dir)`: path normalization, empty-pattern
rejection, scope check, then the anchored (leading `/`), directory-only
(trailing `/`) and unanchored branches.  The negation flag is never
consulted. -/
def GitignoreRule.matches (r : GitignoreRule) (path : List Char) (is_dir : Bool) : Bool :=
  let p := normPath path
  if r.pattern = [] then false
  else if !(scopeOkB r p) then false
  else
    let rel := relToBase r p
    if r.pattern.head? = some '/' then
      globMatch rel (r.pattern.dropWhile (fun c => c = '/'))
    else if r.pattern.getLast? = some '/' then
      if is_dir = false then false
      else matchCore p rel (rstripSlash r.pattern)
    else matchCore p rel r.pattern

/-! ### The ignore engine (`GitignoreHandler.should_ignore`) -/

/-- `should_ignore`: a fold over the rule list in store order; a matching
normal rule sets the verdict to `true`, a matching negation rule resets it to
`false`, non-matching rules leave it unchanged; the initial verdict is
`false`. -/
def should_ignore (rules : List GitignoreRule) (path : List Char) (is_dir : Bool) : Bool :=
  rules.foldl (fun ignored r => if r.matches path is_dir then !r.is_negation else ignored) false

/-- The last-match-wins reading of the ignore verdict: the verdict of the
last rule in store order that matches, `false` when none matches. -/
def lastMatchVerdict (rules : List GitignoreRule) (path : List Char) (is_dir : Bool) : Bool :=
  match rules.reverse.find? (fun r => r.matches path is_dir) with
  | some r => !r.is_negation
  | none => false

/-! ### The loader (`GitignoreHandler.add_rules_from_file`) and CLI rules -/

/-- Characters removed by Python `str.strip()` (ASCII whitespace). -/
def wsChar (c : Char) : Bool :=
  c = ' ' || c = '\t' || c = '\n' || c = '\r' || c = '\x0b' || c = '\x0c'

/-- `line.strip()`. -/
def stripWs (l : List Char) : List Char :=
  ((l.dropWhile wsChar).reverse.dropWhile wsChar).reverse

/-- `line.replace('**/', '')`: one left-to-right pass deleting non-overlapping
occurrences of `**/`. -/
def replStars : List Char → List Char
  | '*' :: '*' :: '/' :: rest => replStars rest
  | c :: rest => c :: replStars rest
  | [] => []

/-- One iteration of the loader loop: strip the line, skip blanks and `#`
comments, normalize `**/` away, construct the rule scoped to the ignore
file's directory. -/
def parseLine (bd : List Char) (raw : List Char) : Option GitignoreRule :=
  let l := stripWs raw
  if l = [] then none
  else if l.head? = some '#' then none
  else some (mkRule (replStars l) bd)

/-- `add_rules_from_file`, with the file read modelled as the pair
`res = (lines, failed)`: `res.1` are the lines the `for line in f` loop
yielded before it finished or raised, and `res.2` records whether an
exception was raised (it is caught by the `except` clause, which only logs a
warning).  Rules parsed from the yielded lines are appended to the store in
order; the flag never influences the resulting store. -/
def add_rules_from_file (rules : List GitignoreRule) (bd : List Char)
    (res : List (List Char) × Bool) : List GitignoreRule :=
  rules ++ res.1.filterMap (parseLine bd)

/-- A rule seeded from a CLI `--exclude` pattern (`scan_directory` line 172):
constructed directly with scope `"."`, with no `**/` normalization. -/
def cliRule (p : List Char) : GitignoreRule := mkRule p dotL


/-! ### Binary sniffing (`is_binary_file`) -/

/-- A UTF-8 continuation byte (`0x80`–`0xBF`). -/
def contOk (b : Nat) : Bool := 0x80 ≤ b && b ≤ 0xBF

/-- Consume one UTF-8 encoded character from a byte stream; `none` on an
invalid or truncated sequence (strict decoding, as Python's `utf-8` codec:
no surrogates, no overlong forms). -/
def utf8Step : List Nat → Option (List Nat)
  | [] => none
  | b :: rest =>
    if b < 0x80 then some rest
    else if b < 0xC2 then none
    else if b ≤ 0xDF then
      (match rest with
       | c1 :: r => if contOk c1 then some r else none
       | [] => none)
    else if b ≤ 0xEF then
      (match rest with
       | c1 :: c2 :: r =>
         if (if b = 0xE0 then 0xA0 else 0x80) ≤ c1 &&
            c1 ≤ (if b = 0xED then 0x9F else 0xBF) && contOk c2
         then some r else none
       | _ => none)
    else if b ≤ 0xF4 then
      (match rest with
       | c1 :: c2 :: c3 :: r =>
         if (if b = 0xF0 then 0x90 else 0x80) ≤ c1 &&
            c1 ≤ (if b = 0xF4 then 0x8F else 0xBF) && contOk c2 && contOk c3
         then some r else none
       | _ => none)
    else none

/-- Decode up to `n` characters from a UTF-8 byte stream; `true` when no
decoding error is hit before `n` characters are produced or the stream ends
(a sequence truncated by end-of-file is an error, matching the codec's final
decode). -/
def utf8Take : Nat → List Nat → Bool
  | _, [] => true
  | 0, _ => true
  | n + 1, l =>
    match utf8Step l with
    | none => false
    | some r => utf8Take n r

/-- Whether the whole byte stream decodes as UTF-8 (each decoded character
consumes at least one byte, so `length` fuel always suffices): the `f.read()`
performed at emission time succeeds. -/
def utf8All (l : List Nat) : Bool := utf8Take l.length l

/-- `is_binary_file`: open the file as UTF-8 text and read the first chunk
(1024 characters requested); a `UnicodeDecodeError` classifies the file as
binary.  The `OSError` case — the `open` itself failing — is *not* handled
here and is modelled by the walker (`walkFiles`). -/
def is_binary_file (bytes : List Nat) : Bool := !(utf8Take 1024 bytes)

/-! ### Filesystem model and the tree walk (`scan_directory`) -/

/-- A regular file as the walker sees it: its name, whether the `open` inside
`is_binary_file` succeeds (`sniffOk`), whether the `open` at emission time
succeeds (`emitOk`, possibly different because of races), and its raw
bytes. -/
structure FileInfo where
  name : List Char
  sniffOk : Bool
  emitOk : Bool
  content : List Nat
  deriving DecidableEq, Repr

/-- One record of the program's standard-output stream: either an emitted
file (the delimiter line carrying its relative path, followed by its
content) or the `[error reading file: ...]` line printed by the per-file
`except` handler (which carries neither the path nor the content). -/
inductive OutRec where
  | fileRec (path : List Char) (content : List Nat)
  | readError
  deriving DecidableEq, Repr

mutual
/-- A directory subtree: the regular files and the subdirectories of one
directory, in the order `os.walk` enumerates them. -/
inductive FSTree : Type where
  | mk : List FileInfo → DirList → FSTree
  deriving DecidableEq
inductive DirList : Type where
  | nil : DirList
  | cons : List Char → FSTree → DirList → DirList
  deriving DecidableEq
end

/-- The names of a directory list. -/
def dirNames : DirList → List (List Char)
  | .nil => []
  | .cons n _ r => n :: dirNames r

/-- View of a `DirList` as a `List` of name/subtree pairs. -/
def DirList.toL : DirList → List (List Char × FSTree)
  | .nil => []
  | .cons n t r => (n, t) :: DirList.toL r

/-- `os.path.join(rel_root, name) if rel_root else name` (POSIX join of
relative components). -/
def joinRel (a b : List Char) : List Char :=
  if a = [] then b else a ++ '/' :: b

/-- The inner `for file in files` loop of `scan_directory` over one
directory's files.  Returns the emitted records and an abort flag: a file
whose `open` inside `is_binary_file` raises (`sniffOk = false`) aborts the
whole scan, because `is_binary_file` catches only `UnicodeDecodeError` and
the call sits outside the per-file `try`.  A failure of the emission-time
read (`emitOk = false`, or a decode error past the sniffed prefix) is caught
and prints the error line, and the loop continues. -/
def walkFiles (rules : List GitignoreRule) (rel : List Char) : List FileInfo → List OutRec × Bool
  | [] => ([], false)
  | f :: fs =>
    if should_ignore rules (joinRel rel f.name) false then walkFiles rules rel fs
    else if !f.sniffOk then ([], true)
    else if is_binary_file f.content then walkFiles rules rel fs
    else if f.emitOk && utf8All f.content then
      let r := walkFiles rules rel fs
      (OutRec.fileRec (joinRel rel f.name) f.content :: r.1, r.2)
    else
      let r := walkFiles rules rel fs
      (OutRec.readError :: r.1, r.2)

mutual
/-- The `os.walk` traversal of `scan_directory` with top-down pruning.
`walkTree` handles one directory: its files are processed first, then its
subdirectories in order.  `walkDirs` carries a flag recording whether the
single `dirs.remove('.git')` of this level has already removed a `.git`
entry (Python's `remove` deletes only the first occurrence); a pruned or
removed directory is never entered.  The abort flag of an escaping exception
propagates and cuts the traversal short. -/
def walkTree (rules : List GitignoreRule) (rel : List Char) : FSTree → List OutRec × Bool
  | .mk files dirs =>
    let fr := walkFiles rules rel files
    if fr.2 then fr
    else
      let dr := walkDirs rules rel false dirs
      (fr.1 ++ dr.1, dr.2)
def walkDirs (rules : List GitignoreRule) (rel : List Char) (gitRemoved : Bool) : DirList → List OutRec × Bool
  | .nil => ([], false)
  | .cons n t rest =>
    if n = gitL && !gitRemoved then walkDirs rules rel true rest
    else if should_ignore rules (joinRel rel n) true then walkDirs rules rel gitRemoved rest
    else
      let r := walkTree rules (joinRel rel n) t
      if r.2 then r
      else
        let r2 := walkDirs rules rel gitRemoved rest
        (r.1 ++ r2.1, r2.2)
end

/-- `scan_directory`'s traversal of the scan root, with an already-loaded
rule store: the emitted records and whether an unhandled exception aborted
the scan. -/
def scan_directory (rules : List GitignoreRule) (t : FSTree) : List OutRec × Bool :=
  walkTree rules [] t

/-- A well-formed file or directory name: nonempty and without `/`. -/
def goodName (n : List Char) : Bool := !n.isEmpty && n.all (fun c => c ≠ '/')

/-- No duplicates in a list of names. -/
def nodupB : List (List Char) → Bool
  | [] => true
  | x :: r => !(r.contains x) && nodupB r

mutual
/-- A well-formed filesystem tree: every name is well-formed and sibling
directory names are distinct (as on a real filesystem). -/
def wfTree : FSTree → Bool
  | .mk files dirs =>
    files.all (fun f => goodName f.name) &&
    (dirNames dirs).all goodName &&
    nodupB (dirNames dirs) &&
    wfDirs dirs
def wfDirs : DirList → Bool
  | .nil => true
  | .cons _ t r => wfTree t && wfDirs r
end

/-- Join a chain of components onto a relative root, the way the walker
builds relative paths. -/
def joinC (rel : List Char) (comps : List (List Char)) : List Char :=
  comps.foldl joinRel rel

/-- Join components into a relative path with `/` separators. -/
def joinComps : List (List Char) → List Char
  | [] => []
  | [c] => c
  | c :: rest => c ++ '/' :: joinComps rest

/-! ### Induction principles for the mutual filesystem tree -/

theorem dirListInd (motive : DirList → Prop) (h0 : motive .nil)
    (h1 : ∀ (n : List Char) (t : FSTree) (rest : DirList), motive rest → motive (.cons n t rest)) :
    ∀ l, motive l
  | .nil => h0
  | .cons n t rest => h1 n t rest (dirListInd motive h0 h1 rest)

theorem sizeOf_mem_toL : ∀ (l : DirList) (n : List Char) (t : FSTree),
    (n, t) ∈ l.toL → sizeOf t < sizeOf l := by
  intro l
  induction l using dirListInd with
  | h0 => intro n t h; simp [DirList.toL] at h
  | h1 n0 t0 rest ih =>
    intro n t h
    simp [DirList.toL] at h
    rcases h with ⟨h1, h2⟩ | h
    · subst h2; simp; omega
    · have := ih n t h
      simp; omega

theorem fsTreeInd (motive : FSTree → Prop)
    (h : ∀ (files : List FileInfo) (dirs : DirList),
      (∀ (n : List Char) (t : FSTree), (n, t) ∈ dirs.toL → motive t) → motive (.mk files dirs)) :
    ∀ t, motive t
  | .mk files dirs =>
    h files dirs (fun n t hm => fsTreeInd motive h t)
  termination_by t => sizeOf t
  decreasing_by
  have := sizeOf_mem_toL dirs n t hm
  simp
  omega

/-! ### Claim theorems: the pattern matcher -/

/-- C3: scope isolation — a rule whose scope directory is not `"."` never
matches a path (after the documented `./`-stripping normalization) that
neither equals the scope directory nor starts with it followed by `/`,
for either value of `isDirectory`. -/
theorem c3_scope_isolation (r : GitignoreRule) (path : List Char) (d : Bool)
    (h1 : r.base_dir ≠ dotL) (h2 : normPath path ≠ r.base_dir)
    (h3 : ¬ (r.base_dir ++ ['/']) <+: normPath path) :
    r.matches path d = false := by
  have hs : scopeOkB r (normPath path) = false := by
    simp only [scopeOkB, Bool.or_eq_false_iff]
    refine ⟨⟨by simpa using h1, ?_⟩, by simpa using h2⟩
    rw [Bool.eq_false_iff]
    intro hpf
    exact h3 (by simpa [List.isPrefixOf_iff_prefix] using hpf)
  unfold GitignoreRule.matches
  simp [hs]

theorem c3_witness :
    (mkRule (s2l "*.txt") (s2l "sub")).matches (s2l "other/x.txt") false = false :=
  c3_scope_isolation _ _ _ (by decide) (by decide) (by decide)

/-- C10: the match predicate never consults the negation flag — two
constructed rules with the same stored pattern and scope that differ only in
`isNegation` (one built from the `!`-prefixed line, one from the bare line)
agree on `matches` for every path and kind; negation only matters in
`should_ignore`'s verdict update. -/
theorem c10_negation_blind :
    (∀ (pat bd : List Char) (n1 n2 : Bool) (path : List Char) (d : Bool),
      (GitignoreRule.mk pat bd n1).matches path d = (GitignoreRule.mk pat bd n2).matches path d)
    ∧ (∀ (p s path : List Char) (d : Bool), p.head? ≠ some '!' →
        (mkRule ('!' :: p) s).pattern = (mkRule p s).pattern ∧
        (mkRule ('!' :: p) s).base_dir = (mkRule p s).base_dir ∧
        (mkRule ('!' :: p) s).is_negation = true ∧
        (mkRule p s).is_negation = false ∧
        (mkRule ('!' :: p) s).matches path d = (mkRule p s).matches path d) := by
  constructor
  · intro pat bd n1 n2 path d
    rfl
  · intro p s path d hp
    have e1 : mkRule ('!' :: p) s = ⟨p, s, true⟩ := by simp [mkRule]
    have e2 : mkRule p s = ⟨p, s, false⟩ := by
      simp [mkRule]
      intro hc
      exact absurd hc hp
    rw [e1, e2]
    exact ⟨rfl, rfl, rfl, rfl, rfl⟩

theorem c10_witness :
    (mkRule ('!' :: s2l "important.txt") dotL).matches (s2l "important.txt") false =
      (mkRule (s2l "important.txt") dotL).matches (s2l "important.txt") false :=
  (c10_negation_blind.2 (s2l "important.txt") dotL (s2l "important.txt") false (by decide)).2.2.2.2

/-- C8 counterexample: the rule built from the line `/` in `sub/.gitignore`
has a stored pattern that ends with `/`, yet `matches("sub", is_dir=False)`
is true — the leading-`/` branch is taken before the directory-only check,
so the claim as stated (over every rule whose pattern ends with `/`)
fails. -/
theorem c8_counterexample :
    (mkRule (s2l "/") (s2l "sub")).pattern.getLast? = some '/' ∧
    (mkRule (s2l "/") (s2l "sub")).matches (s2l "sub") false = true := by
  constructor
  · decide
  · decide

/-- C8 (amended): for every rule whose pattern ends with `/` *and does not
start with `/`* (patterns starting with `/` take the root-anchored branch
first), `matches(path, isDirectory=false)` is false for every path; with
`isDirectory=true` the trailing slash is stripped before matching, so
`temp/` matches the directory `temp` but never a file named `temp` or
`temp.txt`. -/
theorem c8_amended :
    (∀ (r : GitignoreRule) (path : List Char),
        r.pattern.getLast? = some '/' → r.pattern.head? ≠ some '/' →
        r.matches path false = false)
    ∧ (mkRule (s2l "temp/") dotL).matches (s2l "temp") true = true
    ∧ (mkRule (s2l "temp/") dotL).matches (s2l "temp") false = false
    ∧ (mkRule (s2l "temp/") dotL).matches (s2l "temp.txt") false = false
    ∧ (mkRule (s2l "temp/") dotL).matches (s2l "temp.txt") true = false := by
  refine ⟨?_, by decide, by decide, by decide, by decide⟩
  intro r path hlast hhead
  unfold GitignoreRule.matches
  have hne : r.pattern ≠ [] := by
    intro h
    rw [h] at hlast
    simp at hlast
  simp only [hne, if_false]
  by_cases hs : scopeOkB r (normPath path)
  · simp [hs, hhead, hlast]
  · simp [hs]

theorem c8_amended_witness :
    (mkRule (s2l "build/") dotL).matches (s2l "build") false = false :=
  c8_amended.1 _ _ (by decide) (by decide)

/-- C9: root-anchored patterns — for a rule whose pattern starts with `/`,
the match is exactly the glob match of `rel_to_base` against the pattern
with its leading slash(es) stripped (Python `lstrip('/')`), gated only by
the scope check: no basename fallback, and `isDirectory` is irrelevant.
`/root.txt` at scope `"."` matches `root.txt` but not `nested/root.txt`. -/
theorem c9_root_anchored :
    (∀ (r : GitignoreRule) (path : List Char) (d : Bool),
        r.pattern.head? = some '/' →
        r.matches path d =
          (scopeOkB r (normPath path) &&
            globMatch (relToBase r (normPath path)) (r.pattern.dropWhile (fun c => c = '/'))))
    ∧ (∀ (r : GitignoreRule) (path : List Char),
        r.pattern.head? = some '/' → r.matches path true = r.matches path false)
    ∧ (mkRule (s2l "/root.txt") dotL).matches (s2l "root.txt") false = true
    ∧ (mkRule (s2l "/root.txt") dotL).matches (s2l "nested/root.txt") false = false := by
  have main : ∀ (r : GitignoreRule) (path : List Char) (d : Bool),
      r.pattern.head? = some '/' →
      r.matches path d =
        (scopeOkB r (normPath path) &&
          globMatch (relToBase r (normPath path)) (r.pattern.dropWhile (fun c => c = '/'))) := by
    intro r path d hhead
    unfold GitignoreRule.matches
    have hne : r.pattern ≠ [] := by
      intro h
      rw [h] at hhead
      simp at hhead
    simp only [hne, if_false]
    by_cases hs : scopeOkB r (normPath path)
    · simp [hs, hhead]
    · simp [hs]
  refine ⟨main, ?_, by decide, by decide⟩
  intro r path hhead
  rw [main r path true hhead, main r path false hhead]

theorem c9_witness :
    (mkRule (s2l "/docs") dotL).matches (s2l "docs") true =
      (mkRule (s2l "/docs") dotL).matches (s2l "docs") false :=
  c9_root_anchored.2.1 _ _ (by decide)

/-! ### Claim theorems: the ignore engine -/

theorem ignore_fold_last (path : List Char) (d : Bool) :
    ∀ (rules : List GitignoreRule) (b : Bool),
      rules.foldl (fun ignored r => if r.matches path d then !r.is_negation else ignored) b =
        (match rules.reverse.find? (fun r => r.matches path d) with
         | some r => !r.is_negation
         | none => b) := by
  intro rules
  induction rules with
  | nil => intro b; simp
  | cons r rs ih =>
    intro b
    simp only [List.foldl_cons, List.reverse_cons]
    rw [ih, List.find?_append]
    cases hf : rs.reverse.find? (fun r => r.matches path d) with
    | some r2 => simp
    | none =>
      by_cases hm : r.matches path d <;> simp [List.find?, hm]

/-- C1: `should_ignore` is the in-order fold over the rule store where a
matching normal rule sets the verdict to ignored, a matching negation rule
to kept, and non-matching rules change nothing — equivalently, the verdict
of the last matching rule, `false` when no rule matches.  With rules
`[*.txt, !important.txt]` the path `important.txt` is kept; with the order
reversed it is ignored. -/
theorem c1_last_match_wins :
    (∀ (rules : List GitignoreRule) (path : List Char) (d : Bool),
        should_ignore rules path d = lastMatchVerdict rules path d)
    ∧ (∀ (rules : List GitignoreRule) (path : List Char) (d : Bool),
        (∀ r ∈ rules, r.matches path d = false) → should_ignore rules path d = false)
    ∧ should_ignore [mkRule (s2l "*.txt") dotL, mkRule (s2l "!important.txt") dotL]
        (s2l "important.txt") false = false
    ∧ should_ignore [mkRule (s2l "!important.txt") dotL, mkRule (s2l "*.txt") dotL]
        (s2l "important.txt") false = true := by
  have main : ∀ (rules : List GitignoreRule) (path : List Char) (d : Bool),
      should_ignore rules path d = lastMatchVerdict rules path d := by
    intro rules path d
    unfold should_ignore lastMatchVerdict
    exact ignore_fold_last path d rules false
  refine ⟨main, ?_, by decide, by decide⟩
  intro rules path d hall
  rw [main]
  unfold lastMatchVerdict
  have : rules.reverse.find? (fun r => r.matches path d) = none := by
    rw [List.find?_eq_none]
    intro r hr
    simp [hall r (List.mem_reverse.mp hr)]
  rw [this]

theorem c1_witness :
    should_ignore [mkRule (s2l "*.md") dotL] (s2l "a.txt") false = false :=
  c1_last_match_wins.2.1 _ _ _ (by decide)

/-! ### Claim theorems: the loader -/

/-- C6 counterexample: a read that yields the line `*.log` and then raises
(`res = ([*.log], failed)`) still contributes the parsed rule to the store —
the `try` wraps the whole loop and rules appended before the exception
remain, so "contributes no rules from that file" is false for mid-file
failures. -/
theorem c6_counterexample :
    add_rules_from_file [mkRule (s2l "*.txt") dotL] dotL ([s2l "*.log"], true) ≠
      [mkRule (s2l "*.txt") dotL] ∧
    add_rules_from_file [mkRule (s2l "*.txt") dotL] dotL ([s2l "*.log"], true) =
      [mkRule (s2l "*.txt") dotL, mkRule (s2l "*.log") dotL] := by
  constructor
  · decide
  · decide

/-- C6 (amended): a failing read is logged and never aborts the scan
(`add_rules_from_file` is total and its result ignores the failure flag);
previously loaded rules are always preserved as a prefix of the store; a
failure on opening (no lines yielded) contributes no rules; in general
exactly the rules parsed from the lines yielded before the failure are
appended, in order. -/
theorem c6_amended :
    ∀ (rules : List GitignoreRule) (bd : List Char) (res : List (List Char) × Bool),
      rules <+: add_rules_from_file rules bd res
      ∧ (res.1 = [] → add_rules_from_file rules bd res = rules)
      ∧ add_rules_from_file rules bd res = rules ++ res.1.filterMap (parseLine bd) := by
  intro rules bd res
  refine ⟨⟨res.1.filterMap (parseLine bd), rfl⟩, ?_, rfl⟩
  intro h
  simp [add_rules_from_file, h]

theorem c6_witness :
    add_rules_from_file [mkRule (s2l "*.txt") dotL] dotL ([], true) =
      [mkRule (s2l "*.txt") dotL] :=
  (c6_amended [mkRule (s2l "*.txt") dotL] dotL ([], true)).2.1 rfl

/-! ### Claim theorems: the walker's error handling -/

/-- C7 (code bug): a selected text file whose `open` fails (permissions,
deletion after listing) raises *inside* `is_binary_file`, which catches only
`UnicodeDecodeError`; the exception escapes `scan_directory` and aborts the
whole scan, so the remaining readable file `b.txt` is never emitted — while
without the unreadable file it is.  This contradicts the spec's
partial-failure policy; only a failure of the second, emission-time `open`
is caught and isolated. -/
theorem c7_unreadable_aborts :
    scan_directory []
        (.mk [⟨s2l "a.txt", false, false, [104]⟩, ⟨s2l "b.txt", true, true, [104, 105]⟩] .nil) =
      ([], true)
    ∧ scan_directory [] (.mk [⟨s2l "b.txt", true, true, [104, 105]⟩] .nil) =
        ([OutRec.fileRec (s2l "b.txt") [104, 105]], false)
    ∧ scan_directory []
        (.mk [⟨s2l "a.txt", true, false, [104]⟩, ⟨s2l "b.txt", true, true, [104, 105]⟩] .nil) =
        ([OutRec.readError, OutRec.fileRec (s2l "b.txt") [104, 105]], false) := by
  refine ⟨by decide, by decide, by decide⟩

/-! ### Walker lemmas -/

theorem dirNames_toL : ∀ (l : DirList), dirNames l = l.toL.map Prod.fst := by
  intro l
  induction l using dirListInd with
  | h0 => simp [dirNames, DirList.toL]
  | h1 n t rest ih => simp [dirNames, DirList.toL, ih]

theorem walkFiles_bin : ∀ (rules : List GitignoreRule) (rel : List Char) (fs : List FileInfo)
    (p : List Char) (c : List Nat),
    OutRec.fileRec p c ∈ (walkFiles rules rel fs).1 → is_binary_file c = false := by
  intro rules rel fs
  induction fs with
  | nil => intro p c h; simp [walkFiles] at h
  | cons f fs ih =>
    intro p c h
    unfold walkFiles at h
    by_cases h1 : should_ignore rules (joinRel rel f.name) false
    · rw [if_pos h1] at h
      exact ih p c h
    · rw [if_neg h1] at h
      by_cases h2 : f.sniffOk
      · rw [if_neg (by simp [h2])] at h
        by_cases h3 : is_binary_file f.content
        · rw [if_pos h3] at h
          exact ih p c h
        · rw [if_neg h3] at h
          by_cases h4 : (f.emitOk && utf8All f.content) = true
          · rw [if_pos h4] at h
            simp only [List.mem_cons] at h
            rcases h with heq | h
            · have hc : c = f.content := by
                injection heq with _ hc
              rw [hc]
              simpa using h3
            · exact ih p c h
          · rw [if_neg h4] at h
            simp only [List.mem_cons] at h
            rcases h with heq | h
            · exact absurd heq (by simp)
            · exact ih p c h
      · rw [if_pos (by simp [h2])] at h
        simp at h

theorem walkDirs_loc : ∀ (l : DirList) (rules : List GitignoreRule) (rel : List Char) (g : Bool)
    (p : List Char) (c : List Nat),
    OutRec.fileRec p c ∈ (walkDirs rules rel g l).1 →
    ∃ n t, (n, t) ∈ l.toL ∧ should_ignore rules (joinRel rel n) true = false ∧
      OutRec.fileRec p c ∈ (walkTree rules (joinRel rel n) t).1 ∧
      (nodupB (dirNames l) = true → g = false → n ≠ gitL) := by
  intro l
  induction l using dirListInd with
  | h0 => intro rules rel g p c h; simp [walkDirs] at h
  | h1 n0 t0 rest ih =>
    intro rules rel g p c h
    unfold walkDirs at h
    by_cases hg : (n0 = gitL && !g) = true
    · rw [if_pos hg] at h
      obtain ⟨n, t, hin, hkept, hmem, _⟩ := ih rules rel true p c h
      refine ⟨n, t, by simp [DirList.toL, hin], hkept, hmem, ?_⟩
      intro hnd hgf
      simp only [Bool.and_eq_true, decide_eq_true_eq, Bool.not_eq_eq_eq_not, Bool.not_true] at hg
      simp only [dirNames, nodupB, Bool.and_eq_true, Bool.not_eq_eq_eq_not, Bool.not_true] at hnd
      have hname : n ∈ dirNames rest := by
        rw [dirNames_toL]
        exact List.mem_map_of_mem Prod.fst hin
      intro hne
      rw [hne, ← hg.1] at hname
      have : (dirNames rest).contains n0 = true := List.elem_eq_true_of_mem hname
      rw [hnd.1] at this
      simp at this
    · rw [if_neg hg] at h
      by_cases hi : should_ignore rules (joinRel rel n0) true
      · rw [if_pos hi] at h
        obtain ⟨n, t, hin, hkept, hmem, hgit⟩ := ih rules rel g p c h
        refine ⟨n, t, by simp [DirList.toL, hin], hkept, hmem, ?_⟩
        intro hnd hgf
        simp only [dirNames, nodupB, Bool.and_eq_true] at hnd
        exact hgit hnd.2 hgf
      · rw [if_neg hi] at h
        simp only at h
        by_cases hr : (walkTree rules (joinRel rel n0) t0).2 = true
        · rw [if_pos hr] at h
          refine ⟨n0, t0, by simp [DirList.toL], by simpa using hi, h, ?_⟩
          intro _ hgf
          simp only [Bool.and_eq_true, decide_eq_true_eq, Bool.not_eq_eq_eq_not, Bool.not_true] at hg
          intro hne
          exact hg ⟨hne, by simp [hgf]⟩
        · rw [if_neg hr] at h
          simp only [List.mem_append] at h
          rcases h with h | h
          · refine ⟨n0, t0, by simp [DirList.toL], by simpa using hi, h, ?_⟩
            intro _ hgf
            simp only [Bool.and_eq_true, decide_eq_true_eq, Bool.not_eq_eq_eq_not, Bool.not_true] at hg
            intro hne
            exact hg ⟨hne, by simp [hgf]⟩
          · obtain ⟨n, t, hin, hkept, hmem, hgit⟩ := ih rules rel g p c h
            refine ⟨n, t, by simp [DirList.toL, hin], hkept, hmem, ?_⟩
            intro hnd hgf
            simp only [dirNames, nodupB, Bool.and_eq_true] at hnd
            exact hgit hnd.2 hgf

theorem walkTree_bin : ∀ (t : FSTree) (rules : List GitignoreRule) (rel p : List Char) (c : List Nat),
    OutRec.fileRec p c ∈ (walkTree rules rel t).1 → is_binary_file c = false := by
  intro t
  induction t using fsTreeInd with
  | h files dirs ih =>
    intro rules rel p c hmem
    unfold walkTree at hmem
    by_cases hab : (walkFiles rules rel files).2 = true
    · rw [if_pos hab] at hmem
      exact walkFiles_bin rules rel files p c hmem
    · rw [if_neg hab] at hmem
      simp only [List.mem_append] at hmem
      rcases hmem with hm | hm
      · exact walkFiles_bin rules rel files p c hm
      · obtain ⟨n, t', hin, _, hmem', _⟩ := walkDirs_loc dirs rules rel false p c hm
        exact ih n t' hin rules (joinRel rel n) p c hmem'

/-- C5: a file is classified binary exactly when decoding the sniffed
UTF-8 prefix (the `read(1024)` of `is_binary_file`) fails, and no record of
the emitted output ever carries a binary file's path-delimiter line or
content: every emitted `fileRec` has content that the sniffer classifies as
text.  (The error line printed for an unreadable file carries neither path
nor content.) -/
theorem c5_binary_exclusion :
    (∀ (bytes : List Nat), is_binary_file bytes = true ↔ utf8Take 1024 bytes = false)
    ∧ (∀ (rules : List GitignoreRule) (t : FSTree) (p : List Char) (c : List Nat),
        OutRec.fileRec p c ∈ (scan_directory rules t).1 → is_binary_file c = false) := by
  constructor
  · intro bytes
    unfold is_binary_file
    cases h : utf8Take 1024 bytes <;> simp
  · intro rules t p c h
    exact walkTree_bin t rules [] p c h

theorem c5_witness :
    is_binary_file [104, 105] = false :=
  c5_binary_exclusion.2 [] (.mk [⟨s2l "b.txt", true, true, [104, 105]⟩] .nil)
    (s2l "b.txt") [104, 105] (by decide)

/-! ### Claim theorems: rule-construction invariants -/

theorem replStars_block (r : List Char) : replStars ('*' :: '*' :: '/' :: r) = replStars r := rfl

theorem replStars_cons (c : Char) (rest : List Char)
    (h : ∀ r : List Char, c :: rest ≠ '*' :: '*' :: '/' :: r) :
    replStars (c :: rest) = c :: replStars rest := by
  rw [replStars.eq_def]
  split
  · next r heq => exact absurd heq (h r)
  all_goals simp_all

theorem infix_cons_lift {p l : List Char} {c : Char} (h : p <:+: l) : p <:+: (c :: l) :=
  h.trans (List.suffix_cons c l).isInfix

theorem replStars_no_ss : ∀ (k : Nat) (l : List Char), l.length ≤ k →
    ¬ ((s2l "***/") <:+: l) → ¬ ((s2l "**/") <:+: replStars l) := by
  intro k
  induction k with
  | zero =>
    intro l hl _
    have hnil : l = [] := List.eq_nil_of_length_eq_zero (Nat.le_zero.mp hl)
    subst hnil
    intro h
    have hll := h.length_le
    simp only [replStars, List.length_nil] at hll
    exact absurd hll (by decide)
  | succ k ih =>
    intro l hl hssl
    rcases l with _ | ⟨c1, l1⟩
    · intro h
      have hll := h.length_le
      simp only [replStars, List.length_nil] at hll
      exact absurd hll (by decide)
    rcases l1 with _ | ⟨c2, l2⟩
    · intro h
      have e1 : replStars [c1] = [c1] := by
        rw [replStars_cons c1 [] (by intro r hr; simp at hr)]
        rfl
      rw [e1] at h
      have hll := h.length_le
      simp only [List.length_cons, List.length_nil] at hll
      exact absurd hll (by decide)
    rcases l2 with _ | ⟨c3, l3⟩
    · intro h
      have e1 : replStars [c1, c2] = [c1, c2] := by
        rw [replStars_cons c1 [c2] (by intro r hr; simp at hr),
          replStars_cons c2 [] (by intro r hr; simp at hr)]
        rfl
      rw [e1] at h
      have hll := h.length_le
      simp only [List.length_cons, List.length_nil] at hll
      exact absurd hll (by decide)
    · by_cases hm : c1 = '*' ∧ c2 = '*' ∧ c3 = '/'
      · obtain ⟨e1, e2, e3⟩ := hm
        subst e1; subst e2; subst e3
        rw [replStars_block]
        apply ih l3 (by simp at hl ⊢; omega)
        intro hs
        exact hssl (infix_cons_lift (infix_cons_lift (infix_cons_lift hs)))
      · have hstep : replStars (c1 :: c2 :: c3 :: l3) = c1 :: replStars (c2 :: c3 :: l3) := by
          apply replStars_cons
          intro r hr
          simp at hr
          exact hm ⟨hr.1, hr.2.1, hr.2.2.1⟩
        rw [hstep]
        intro hss
        rcases List.infix_cons_iff.mp hss with hpre | hinf
        · obtain ⟨hc1, hpre2⟩ := List.cons_prefix_cons.mp hpre
          by_cases hm2 : ∃ r, (c2 :: c3 :: l3) = '*' :: '*' :: '/' :: r
          · obtain ⟨r, hr⟩ := hm2
            simp at hr
            apply hssl
            refine List.IsPrefix.isInfix ⟨r, ?_⟩
            simp [s2l, ← hc1, hr.1, hr.2.1, hr.2.2]
          · have hstep2 : replStars (c2 :: c3 :: l3) = c2 :: replStars (c3 :: l3) :=
              replStars_cons _ _ (fun r heq => hm2 ⟨r, heq⟩)
            rw [hstep2] at hpre2
            obtain ⟨hc2, hpre3⟩ := List.cons_prefix_cons.mp hpre2
            by_cases hm3 : ∃ r, (c3 :: l3) = '*' :: '*' :: '/' :: r
            · obtain ⟨r, hr⟩ := hm3
              simp at hr
              apply hssl
              refine ⟨[c1], r, ?_⟩
              simp [s2l, ← hc2, hr.1, hr.2]
            · have hstep3 : replStars (c3 :: l3) = c3 :: replStars l3 :=
                replStars_cons _ _ (fun r heq => hm3 ⟨r, heq⟩)
              rw [hstep3] at hpre3
              obtain ⟨hc3, _⟩ := List.cons_prefix_cons.mp hpre3
              exact hm ⟨hc1.symm, hc2.symm, hc3.symm⟩
        · exact ih (c2 :: c3 :: l3) (by simp at hl ⊢; omega)
            (fun hs => hssl (infix_cons_lift hs)) hinf

/-- C4 counterexample: three store-reachable rules violate the claimed
invariant.  The ignore-file line `!!foo` stores the pattern `!foo`, which
begins with `!` (only one `!` is stripped); the CLI exclude `**/build` is
stored verbatim, containing `**/` (no normalization happens on the CLI
path); and the ignore-file line `****//` stores the pattern `**/`, because
the single replacement pass re-creates an occurrence across the seam of a
removal. -/
theorem c4_counterexample :
    (parseLine dotL (s2l "!!foo") = some ⟨s2l "!foo", dotL, true⟩
      ∧ (⟨s2l "!foo", dotL, true⟩ : GitignoreRule).pattern.head? = some '!')
    ∧ ((cliRule (s2l "**/build")).pattern = s2l "**/build"
      ∧ (s2l "**/") <:+: (cliRule (s2l "**/build")).pattern)
    ∧ (parseLine dotL (s2l "****//") = some ⟨s2l "**/", dotL, false⟩
      ∧ (s2l "**/") <:+: (⟨s2l "**/", dotL, false⟩ : GitignoreRule).pattern) := by
  refine ⟨⟨by decide, by decide⟩, ⟨by decide, by decide⟩, ⟨by decide, by decide⟩⟩

/-- C4 (amended): rule construction strips exactly one leading `!` — so a
stored pattern begins with `!` only when the constructed-from string begins
with `!!`; for rules parsed from ignore-file lines, the single left-to-right
`**/`-removal pass leaves no `**/` in the stored pattern provided the
stripped line contains no `***/` (a `***/` run can splice a new occurrence
together across a removal); CLI exclude patterns are stored verbatim apart
from the `!` stripping — they get no `**/` normalization at all. -/
theorem c4_amended :
    (∀ (p bd : List Char), ¬ (('!' :: '!' :: []) <+: p) →
      (mkRule p bd).pattern.head? ≠ some '!')
    ∧ (∀ (bd raw : List Char) (r : GitignoreRule), parseLine bd raw = some r →
        ¬ ((s2l "***/") <:+: stripWs raw) → ¬ ((s2l "**/") <:+: r.pattern))
    ∧ (∀ (p : List Char), p.head? ≠ some '!' → (cliRule p).pattern = p) := by
  refine ⟨?_, ?_, ?_⟩
  · intro p bd h
    unfold mkRule
    by_cases hh : p.head? = some '!'
    · rcases p with _ | ⟨c, p'⟩
      · simp at hh
      · simp at hh
        subst hh
        rw [if_pos (show ('!' :: p').head? = some '!' from rfl)]
        show p'.head? ≠ some '!'
        rcases p' with _ | ⟨c2, p''⟩
        · simp
        · simp only [List.head?_cons, ne_eq, Option.some.injEq]
          intro hc2
          subst hc2
          exact h ⟨p'', rfl⟩
    · simp [hh]
  · intro bd raw r hparse hraw
    unfold parseLine at hparse
    by_cases h1 : stripWs raw = []
    · simp [h1] at hparse
    · rw [if_neg h1] at hparse
      by_cases h2 : (stripWs raw).head? = some '#'
      · rw [if_pos h2] at hparse
        simp at hparse
      · rw [if_neg h2] at hparse
        simp only [Option.some.injEq] at hparse
        have hrepl : ¬ ((s2l "**/") <:+: replStars (stripWs raw)) :=
          replStars_no_ss (stripWs raw).length (stripWs raw) le_rfl hraw
        rw [← hparse]
        unfold mkRule
        by_cases hh : (replStars (stripWs raw)).head? = some '!'
        · simp only [if_pos hh]
          intro hinf
          exact hrepl (hinf.trans (List.drop_suffix 1 _).isInfix)
        · simp only [if_neg hh]
          exact hrepl
  · intro p hp
    unfold cliRule mkRule
    simp [hp]

theorem c4_witness :
    (mkRule (s2l "!build") dotL).pattern.head? ≠ some '!'
    ∧ ¬ ((s2l "**/") <:+: (⟨s2l "build", dotL, false⟩ : GitignoreRule).pattern)
    ∧ (cliRule (s2l "build")).pattern = s2l "build" :=
  ⟨c4_amended.1 (s2l "!build") dotL (by decide),
   c4_amended.2.1 dotL (s2l "**/build") ⟨s2l "build", dotL, false⟩ (by decide) (by decide),
   c4_amended.2.2 (s2l "build") (by decide)⟩

/-! ### Path algebra for the pruning claim -/

theorem goodName_ne_nil {x : List Char} (h : goodName x = true) : x ≠ [] := by
  unfold goodName at h
  simp only [Bool.and_eq_true] at h
  intro hx
  rw [hx] at h
  simp at h

theorem goodName_no_slash {x : List Char} (h : goodName x = true) : '/' ∉ x := by
  unfold goodName at h
  simp only [Bool.and_eq_true, List.all_eq_true] at h
  intro hx
  have := h.2 '/' hx
  simp at this

theorem joinC_cons (rel x : List Char) (xs : List (List Char)) :
    joinC rel (x :: xs) = joinC (joinRel rel x) xs := rfl

theorem joinC_single (rel x : List Char) : joinC rel [x] = joinRel rel x := rfl

theorem joinComps_cons (x : List Char) (xs : List (List Char)) (h : xs ≠ []) :
    joinComps (x :: xs) = x ++ '/' :: joinComps xs := by
  cases xs with
  | nil => exact absurd rfl h
  | cons y ys => rfl

theorem joinC_ne_nil : ∀ (comps : List (List Char)) (rel : List Char), comps ≠ [] → rel ≠ [] →
    joinC rel comps = rel ++ '/' :: joinComps comps := by
  intro comps
  induction comps with
  | nil => intro rel h; exact absurd rfl h
  | cons x xs ih =>
    intro rel _ hrel
    cases xs with
    | nil =>
      simp [joinC, joinRel, joinComps, hrel]
    | cons y ys =>
      rw [joinC_cons, ih (joinRel rel x) (by simp) (by simp [joinRel, hrel])]
      rw [joinComps_cons x (y :: ys) (by simp)]
      simp [joinRel, hrel]

theorem joinC_nil_eq : ∀ (comps : List (List Char)), comps ≠ [] → (∀ x ∈ comps, x ≠ []) →
    joinC [] comps = joinComps comps := by
  intro comps hne hnn
  cases comps with
  | nil => exact absurd rfl hne
  | cons x xs =>
    cases xs with
    | nil => simp [joinC, joinRel, joinComps]
    | cons y ys =>
      rw [joinC_cons]
      have hx : joinRel [] x = x := by simp [joinRel]
      rw [hx]
      rw [joinC_ne_nil (y :: ys) x (by simp) (hnn x (by simp))]
      rw [joinComps_cons x (y :: ys) (by simp)]

theorem takeWhile_append_stop : ∀ (a d : List Char) (c : Char) (p : Char → Bool), p c = false →
    (a ++ c :: d).takeWhile p = a.takeWhile p := by
  intro a
  induction a with
  | nil => intro d c p hp; simp [List.takeWhile, hp]
  | cons x a' ih =>
    intro d c p hp
    simp only [List.cons_append, List.takeWhile]
    cases hpx : p x with
    | true => simp [ih d c p hp]
    | false => simp

theorem basename_append (u v : List Char) : basename (u ++ '/' :: v) = basename v := by
  unfold basename
  have hrev : (u ++ '/' :: v).reverse = v.reverse ++ '/' :: u.reverse := by
    simp
  rw [hrev, takeWhile_append_stop v.reverse u.reverse '/' _ (by simp)]

theorem basename_no_slash {x : List Char} (h : '/' ∉ x) : basename x = x := by
  unfold basename
  have : x.reverse.takeWhile (fun c => c ≠ '/') = x.reverse := by
    rw [List.takeWhile_eq_self_iff]
    intro a ha
    simp only [ne_eq, decide_eq_true_eq]
    intro hc
    subst hc
    exact h (List.mem_reverse.mp ha)
  rw [this, List.reverse_reverse]

theorem basename_joinComps_mem : ∀ (comps : List (List Char)), comps ≠ [] →
    (∀ x ∈ comps, goodName x = true) → basename (joinComps comps) ∈ comps := by
  intro comps
  induction comps with
  | nil => intro h; exact absurd rfl h
  | cons x xs ih =>
    intro _ hgood
    cases xs with
    | nil =>
      simp only [joinComps]
      rw [basename_no_slash (goodName_no_slash (hgood x (by simp)))]
      simp
    | cons y ys =>
      rw [joinComps_cons x (y :: ys) (by simp), basename_append]
      have := ih (by simp) (fun z hz => hgood z (by simp [hz]))
      simp [this]

theorem prefix_join : ∀ (comps : List (List Char)) (d : List Char),
    (∀ x ∈ comps, goodName x = true) → comps ≠ [] →
    (d ++ ['/']) <+: joinComps comps →
    ∃ k, 1 ≤ k ∧ k < comps.length ∧ d = joinComps (comps.take k) := by
  intro comps
  induction comps with
  | nil => intro d _ h; exact absurd rfl h
  | cons c0 rest ih =>
    intro d hgood _ hpre
    cases rest with
    | nil =>
      exfalso
      have hmem : '/' ∈ c0 := hpre.sublist.subset (by simp)
      exact goodName_no_slash (hgood c0 (by simp)) hmem
    | cons c1 rest' =>
      have hjoin : joinComps (c0 :: c1 :: rest') = c0 ++ '/' :: joinComps (c1 :: rest') :=
        joinComps_cons c0 (c1 :: rest') (by simp)
      rw [hjoin] at hpre
      rcases lt_trichotomy d.length c0.length with hlt | heq | hgt
      · exfalso
        have hc0pre : c0 <+: c0 ++ '/' :: joinComps (c1 :: rest') := List.prefix_append c0 _
        have : (d ++ ['/']) <+: c0 :=
          List.prefix_of_prefix_length_le hpre hc0pre (by simp; omega)
        have hmem : '/' ∈ c0 := this.sublist.subset (by simp)
        exact goodName_no_slash (hgood c0 (by simp)) hmem
      · have hdpre : d <+: c0 ++ '/' :: joinComps (c1 :: rest') :=
          (List.prefix_append d ['/']).trans hpre
        have hc0pre : c0 <+: c0 ++ '/' :: joinComps (c1 :: rest') := List.prefix_append c0 _
        have hdc0 : d = c0 :=
          (List.prefix_of_prefix_length_le hdpre hc0pre (by omega)).eq_of_length heq
        exact ⟨1, le_rfl, by simp, by simp [joinComps, hdc0]⟩
      · have hc0s : (c0 ++ ['/']) <+: c0 ++ '/' :: joinComps (c1 :: rest') :=
          ⟨joinComps (c1 :: rest'), by simp⟩
        have hdpre : d <+: c0 ++ '/' :: joinComps (c1 :: rest') :=
          (List.prefix_append d ['/']).trans hpre
        have hc0d : (c0 ++ ['/']) <+: d :=
          List.prefix_of_prefix_length_le hc0s hdpre (by simp; omega)
        obtain ⟨d', hd'⟩ := hc0d
        have hd2 : d = c0 ++ '/' :: d' := by rw [← hd']; simp
        have hpre2 : (d' ++ ['/']) <+: joinComps (c1 :: rest') := by
          rw [hd2] at hpre
          have : (c0 ++ ['/']) ++ (d' ++ ['/']) <+: (c0 ++ ['/']) ++ joinComps (c1 :: rest') := by
            simpa using hpre
          exact (List.prefix_append_right_inj (c0 ++ ['/'])).mp this
        obtain ⟨k', hk1, hk2, hdk⟩ :=
          ih d' (fun z hz => hgood z (by simp [hz])) (by simp) hpre2
        refine ⟨k' + 1, by omega, by simp at hk2 ⊢; omega, ?_⟩
        rw [List.take_succ_cons]
        rw [joinComps_cons c0 ((c1 :: rest').take k')
          (by
            intro htk
            have := congrArg List.length htk
            simp at this
            omega)]
        rw [← hdk, hd2]

/-! ### The pruning claim -/

theorem walkFiles_path : ∀ (rules : List GitignoreRule) (rel : List Char) (fs : List FileInfo)
    (p : List Char) (c : List Nat),
    OutRec.fileRec p c ∈ (walkFiles rules rel fs).1 →
    ∃ f, f ∈ fs ∧ p = joinRel rel f.name := by
  intro rules rel fs
  induction fs with
  | nil => intro p c h; simp [walkFiles] at h
  | cons f fs ih =>
    intro p c h
    unfold walkFiles at h
    by_cases h1 : should_ignore rules (joinRel rel f.name) false
    · rw [if_pos h1] at h
      obtain ⟨g, hg, hp⟩ := ih p c h
      exact ⟨g, by simp [hg], hp⟩
    · rw [if_neg h1] at h
      by_cases h2 : f.sniffOk
      · rw [if_neg (by simp [h2])] at h
        by_cases h3 : is_binary_file f.content
        · rw [if_pos h3] at h
          obtain ⟨g, hg, hp⟩ := ih p c h
          exact ⟨g, by simp [hg], hp⟩
        · rw [if_neg h3] at h
          by_cases h4 : (f.emitOk && utf8All f.content) = true
          · rw [if_pos h4] at h
            simp only [List.mem_cons] at h
            rcases h with heq | h
            · have hp : p = joinRel rel f.name := by
                injection heq with hp _
              exact ⟨f, by simp, hp⟩
            · obtain ⟨g, hg, hp⟩ := ih p c h
              exact ⟨g, by simp [hg], hp⟩
          · rw [if_neg h4] at h
            simp only [List.mem_cons] at h
            rcases h with heq | h
            · exact absurd heq (by simp)
            · obtain ⟨g, hg, hp⟩ := ih p c h
              exact ⟨g, by simp [hg], hp⟩
      · rw [if_pos (by simp [h2])] at h
        simp at h

theorem wfDirs_mem : ∀ (l : DirList) (n : List Char) (t : FSTree),
    wfDirs l = true → (n, t) ∈ l.toL → wfTree t = true := by
  intro l
  induction l using dirListInd with
  | h0 => intro n t _ h; simp [DirList.toL] at h
  | h1 n0 t0 rest ih =>
    intro n t hwf h
    unfold wfDirs at hwf
    simp only [Bool.and_eq_true] at hwf
    simp only [DirList.toL, List.mem_cons] at h
    rcases h with heq | h
    · injection heq with h1 h2
      subst h2
      exact hwf.1
    · exact ih n t hwf.2 h

theorem walkTree_paths : ∀ (t : FSTree), wfTree t = true →
    ∀ (rules : List GitignoreRule) (rel p : List Char) (c : List Nat),
    OutRec.fileRec p c ∈ (walkTree rules rel t).1 →
    ∃ (ds : List (List Char)) (fn : List Char),
      p = joinC rel (ds ++ [fn]) ∧
      (∀ x ∈ ds ++ [fn], goodName x = true) ∧
      (∀ k, 1 ≤ k → k ≤ ds.length → should_ignore rules (joinC rel (ds.take k)) true = false) ∧
      (∀ x ∈ ds, x ≠ gitL) := by
  intro t
  induction t using fsTreeInd with
  | h files dirs ih =>
    intro hwf rules rel p c hmem
    unfold wfTree at hwf
    simp only [Bool.and_eq_true] at hwf
    obtain ⟨⟨⟨hfiles, hnames⟩, hnodup⟩, hsub⟩ := hwf
    have filesCase : (OutRec.fileRec p c ∈ (walkFiles rules rel files).1) →
        ∃ (ds : List (List Char)) (fn : List Char),
          p = joinC rel (ds ++ [fn]) ∧
          (∀ x ∈ ds ++ [fn], goodName x = true) ∧
          (∀ k, 1 ≤ k → k ≤ ds.length →
            should_ignore rules (joinC rel (ds.take k)) true = false) ∧
          (∀ x ∈ ds, x ≠ gitL) := by
      intro hm
      obtain ⟨f, hf, hp⟩ := walkFiles_path rules rel files p c hm
      refine ⟨[], f.name, by simpa [joinC_single] using hp, ?_, ?_, by simp⟩
      · intro x hx
        simp at hx
        subst hx
        exact List.all_eq_true.mp hfiles f hf
      · intro k hk1 hk2
        simp at hk2
        omega
    unfold walkTree at hmem
    by_cases hab : (walkFiles rules rel files).2 = true
    · rw [if_pos hab] at hmem
      exact filesCase hmem
    · rw [if_neg hab] at hmem
      simp only [List.mem_append] at hmem
      rcases hmem with hm | hm
      · exact filesCase hm
      · obtain ⟨n, t', hin, hkept, hmem', hgitc⟩ := walkDirs_loc dirs rules rel false p c hm
        have hwft' : wfTree t' = true := wfDirs_mem dirs n t' hsub hin
        obtain ⟨ds', fn, hp, hgood, hchain, hgit⟩ :=
          ih n t' hin hwft' rules (joinRel rel n) p c hmem'
        have hngit : n ≠ gitL := hgitc hnodup rfl
        have hngood : goodName n = true := by
          have hmemn : n ∈ dirNames dirs := by
            rw [dirNames_toL]
            exact List.mem_map_of_mem Prod.fst hin
          exact List.all_eq_true.mp hnames n hmemn
        refine ⟨n :: ds', fn, ?_, ?_, ?_, ?_⟩
        · rw [hp]
          rfl
        · intro x hx
          simp only [List.cons_append, List.mem_cons] at hx
          rcases hx with hx | hx
          · subst hx; exact hngood
          · exact hgood x hx
        · intro k hk1 hk2
          cases k with
          | zero => omega
          | succ j =>
            cases j with
            | zero =>
              simpa [joinC_single] using hkept
            | succ j' =>
              rw [List.take_succ_cons, joinC_cons]
              apply hchain (j' + 1) (by omega)
              simp at hk2
              omega
        · intro x hx
          simp only [List.mem_cons] at hx
          rcases hx with hx | hx
          · subst hx; exact hngit
          · exact hgit x hx

/-- C2: pre-order pruning — on a well-formed tree, for every directory path
`d` that the loaded rules judge ignored (`should_ignore(d, is_dir=True)`),
no emitted file record's path lies under `d` (at any depth), regardless of
any file-level negation rule; and no emitted file record's path passes
through a directory named `.git` (which `os.walk`'s `dirs.remove('.git')`
always prunes, regardless of the loaded rules). -/
theorem c2_pruning :
    ∀ (rules : List GitignoreRule) (t : FSTree) (d p : List Char) (c : List Nat),
      wfTree t = true →
      OutRec.fileRec p c ∈ (scan_directory rules t).1 →
      (should_ignore rules d true = true → ¬ ((d ++ ['/']) <+: p))
      ∧ ((d ++ ['/']) <+: p → basename d ≠ gitL) := by
  intro rules t d p c hwf hmem
  obtain ⟨ds, fn, hp, hgood, hchain, hgit⟩ := walkTree_paths t hwf rules [] p c hmem
  have hne : ds ++ [fn] ≠ [] := by simp
  have hnn : ∀ x ∈ ds ++ [fn], x ≠ [] := fun x hx => goodName_ne_nil (hgood x hx)
  rw [joinC_nil_eq (ds ++ [fn]) hne hnn] at hp
  subst hp
  have extract : ∀ (hpre : (d ++ ['/']) <+: joinComps (ds ++ [fn])),
      ∃ k, 1 ≤ k ∧ k ≤ ds.length ∧ d = joinComps (ds.take k) := by
    intro hpre
    obtain ⟨k, hk1, hk2, hdk⟩ := prefix_join (ds ++ [fn]) d hgood hne hpre
    have hkds : k ≤ ds.length := by
      simp only [List.length_append, List.length_cons, List.length_nil] at hk2
      omega
    rw [List.take_append_of_le_length hkds] at hdk
    exact ⟨k, hk1, hkds, hdk⟩
  constructor
  · intro hign hpre
    obtain ⟨k, hk1, hkds, hdk⟩ := extract hpre
    have htk : ds.take k ≠ [] := by
      intro h
      have hlen := congrArg List.length h
      rw [List.length_take] at hlen
      simp only [List.length_nil] at hlen
      omega
    have hchk := hchain k hk1 hkds
    rw [joinC_nil_eq (ds.take k) htk
      (fun x hx => goodName_ne_nil (hgood x (by
        simp only [List.mem_append]
        exact Or.inl (List.take_subset k ds hx))))] at hchk
    rw [← hdk] at hchk
    rw [hign] at hchk
    exact Bool.true_eq_false.mp hchk
  · intro hpre
    obtain ⟨k, hk1, hkds, hdk⟩ := extract hpre
    have htk : ds.take k ≠ [] := by
      intro h
      have hlen := congrArg List.length h
      rw [List.length_take] at hlen
      simp only [List.length_nil] at hlen
      omega
    have hbn : basename d ∈ ds.take k := by
      rw [hdk]
      exact basename_joinComps_mem (ds.take k) htk
        (fun x hx => hgood x (by
          simp only [List.mem_append]
          exact Or.inl (List.take_subset k ds hx)))
    exact hgit (basename d) (List.take_subset k ds hbn)

theorem c2_witness :
    ¬ ((s2l "logs" ++ ['/']) <+: s2l "keep.txt") :=
  (c2_pruning [mkRule (s2l "logs") dotL]
      (.mk [⟨s2l "keep.txt", true, true, [104]⟩]
        (.cons (s2l "logs") (.mk [⟨s2l "a.txt", true, true, [104]⟩] .nil)
          (.cons gitL (.mk [⟨s2l "conf", true, true, [99]⟩] .nil) .nil)))
      (s2l "logs") (s2l "keep.txt") [104] (by decide) (by decide)).1 (by decide)
